import Mathlib

/-!
Verification of the image-enhancement pipeline of `src/main.py`
(Spinal Cord Image Clustering).

A grayscale image buffer is embedded as `List (List ℚ)` in row-major order.
Sample values are exact rationals; the Python code computes in
float64/float32, and the properties proved here are about the exact
arithmetic those lines implement.  External library routines
(OpenCV CLAHE, the OpenCV resize resampler, scikit-learn KMeans) are
embedded as explicit function parameters, and the facts the code relies on
about them (documented output shapes, label/centroid counts, fixed-seed
determinism) appear as named hypotheses of the theorems that need them.
`cv2.normalize(..., 0, 255, cv2.NORM_MINMAX)` followed by
`.astype(np.uint8)` is embedded concretely (`rescale_cast`), including
OpenCV's degenerate constant-input case, where the scale factor is set to 0
and every output sample becomes 0.
-/

/-- A grayscale image buffer: rows of rational-valued samples. -/
abbrev Img : Type := List (List ℚ)

/-- Number of rows of the buffer. -/
def height (a : Img) : Nat := a.length

/-- Number of columns of the buffer, read off the first row
(0 for an empty buffer), as `image.shape` does for the arrays built here. -/
def width (a : Img) : Nat :=
  match a with
  | [] => 0
  | r :: _ => r.length

/-- The (height, width) pair, `image.shape` in the source. -/
def shape (a : Img) : Nat × Nat := (height a, width a)

/-- Row-major flattening of the buffer, `image.reshape(-1, 1)` in the
source (the trailing singleton axis is dropped here). -/
def pixels (a : Img) : List ℚ := a.flatten

/-- Pointwise map over every sample of the buffer. -/
def pmap (f : ℚ → ℚ) (a : Img) : Img := a.map (fun r => r.map f)

/-- Pointwise combination of two buffers, truncating to the common extent
as `List.zipWith` does (numpy broadcasting never truncates, but the
pipeline only combines equally shaped buffers). -/
def pzip (f : ℚ → ℚ → ℚ) (a b : Img) : Img :=
  List.zipWith (fun r s => List.zipWith f r s) a b

/-- Smallest sample value of the buffer (0 on an empty buffer). -/
def imin (a : Img) : ℚ :=
  match pixels a with
  | [] => 0
  | x :: xs => xs.foldl min x

/-- Largest sample value of the buffer (0 on an empty buffer). -/
def imax (a : Img) : ℚ :=
  match pixels a with
  | [] => 0
  | x :: xs => xs.foldl max x

/-- Floor of a rational, in the executable form `num / den` (integer
division); equal to `Int.floor` by `Rat.floor_eq_div`. -/
def qfloor (q : ℚ) : ℤ := q.num / (q.den : ℤ)

theorem qfloor_eq_floor (q : ℚ) : qfloor q = ⌊q⌋ := Rat.floor_def.symm

/-- The per-sample function applied by
`cv2.normalize(src, None, 0, 255, cv2.NORM_MINMAX).astype(np.uint8)`:
an affine map sending [mn, mx] onto [0, 255], then truncation to an
integer (`astype(np.uint8)` truncates toward zero; all values here are
nonnegative, so truncation is the floor).  When `mx ≤ mn` OpenCV sets the
scale factor to 0 and the shift to 0, so every sample maps to 0. -/
def rcFun (mn mx : ℚ) : ℚ → ℚ :=
  if mn < mx then fun x => ((qfloor ((x - mn) * 255 / (mx - mn)) : ℤ) : ℚ)
  else fun _ => 0

/-- `cv2.normalize(src, None, 0, 255, cv2.NORM_MINMAX).astype(np.uint8)`,
the rescale-and-cast step closing `enhance_image_kmeans` (line 76) and
`blend_images` (line 83) of src/main.py. -/
def rescale_cast (a : Img) : Img := pmap (rcFun (imin a) (imax a)) a

/-- Rebuild a 2-D buffer from a flat sample list, following the row
lengths of a template: `flat.reshape(image.shape)` for `image` the
template.  Surplus samples are dropped and missing samples leave short
rows, exactly as `List.take`/`List.drop` behave; the pipeline always
passes a flat list of exactly the template's sample count. -/
def reshapeLike : Img → List ℚ → Img
  | [], _ => []
  | r :: rs, xs => xs.take r.length :: reshapeLike rs (xs.drop r.length)

/-- The scikit-learn KMeans entry point used by the source, as an abstract
library: `fit` receives the requested cluster count, the `random_state`
argument (`some seed` when a fixed seed is passed, `none` otherwise), the
ambient global random-generator state an unseeded run would consume, and
the flattened sample list; it returns `kmeans.labels_` (one label per
sample) and `kmeans.cluster_centers_` (one centroid per cluster). -/
structure KMeansLib where
  fit : Nat → Option Nat → Nat → List ℚ → List Nat × List ℚ

/-- `preprocess_image` (src/main.py lines 64-66): applies
`cv2.createCLAHE(clipLimit=3.0, tileGridSize=(8, 8))` to the buffer.  The
CLAHE transform itself is the external routine `clahe`. -/
def preprocess_image (clahe : Img → Img) (image : Img) : Img := clahe image

/-- `enhance_image_kmeans` (src/main.py lines 69-76): flatten the buffer,
fit `KMeans(n_clusters=n_clusters, random_state=42)` on it, replace every
sample by its cluster's centroid (`centers[labels]`), reshape to the input
shape, and rescale-and-cast to 8-bit. -/
def enhance_image_kmeans (km : KMeansLib) (rng : Nat) (image : Img)
    (n_clusters : Nat) : Img :=
  let pixel_values := pixels image
  let fitted := km.fit n_clusters (some 42) rng pixel_values
  let labels := fitted.1
  let centers := fitted.2
  let segmented_pixels :=
    reshapeLike image (labels.map (fun l => centers.getD l 0))
  rescale_cast segmented_pixels

/-- The pre-rescale blend of `blend_images` (src/main.py line 82):
`alpha * clustered + (1 - alpha) * original`, computed pointwise. -/
def blend_pre (original clustered : Img) (alpha : ℚ) : Img :=
  pzip (fun o c => alpha * c + (1 - alpha) * o) original clustered

/-- `blend_images` (src/main.py lines 79-83): the pointwise affine blend
of the two buffers followed by the unconditional rescale-and-cast.  The
Python signature defaults `alpha` to 0.7; the call sites here always pass
it explicitly. -/
def blend_images (original clustered : Img) (alpha : ℚ) : Img :=
  rescale_cast (blend_pre original clustered alpha)

/-- Interpolation modes of `cv2.resize` that matter here. -/
inductive Interp
  | inter_area
  | inter_linear
deriving DecidableEq

/-- The OpenCV resampler behind `cv2.resize`, as an abstract library:
`resize` receives the buffer, the requested output height and width, and
the interpolation mode.  (`cv2.resize` takes `(new_w, new_h)`; the model
uses (height, width) order throughout.) -/
structure ResizeLib where
  resize : Img → Nat → Nat → Interp → Img

/-- The uniform scale factor `max_size / max(h, w)` of `resize_image`
(src/main.py line 58). -/
def scaleOf (image : Img) (max_size : Nat) : ℚ :=
  (max_size : ℚ) / ((max (height image) (width image) : ℕ) : ℚ)

/-- `int(h * scale)` of src/main.py line 59: Python `int()` truncates
toward zero, which is the floor for these nonnegative values. -/
def newH (image : Img) (max_size : Nat) : Nat :=
  (qfloor ((height image : ℚ) * scaleOf image max_size)).toNat

/-- `int(w * scale)` of src/main.py line 59. -/
def newW (image : Img) (max_size : Nat) : Nat :=
  (qfloor ((width image : ℚ) * scaleOf image max_size)).toNat

/-- `resize_image` (src/main.py lines 55-61): when the larger dimension
exceeds `max_size`, downscale both dimensions by `max_size / max(h, w)`
(truncating to integer pixel counts) with `cv2.INTER_AREA` resampling;
otherwise return the buffer unchanged. -/
def resize_image (cv : ResizeLib) (image : Img) (max_size : Nat) : Img :=
  if max (height image) (width image) > max_size then
    cv.resize image (newH image max_size) (newW image max_size)
      Interp.inter_area
  else image

/-- The four named artifacts the script builds for display and download
(src/main.py lines 155-160). -/
structure Artifacts where
  original : Img
  preprocessed : Img
  clustered : Img
  enhanced : Img
deriving DecidableEq

/-- The error kinds named by the specification's failure policy.  The
script itself never constructs any of them: it performs no parameter
validation. -/
inductive PipeError
  | invalidParameter
  | invalidImageFormat
  | emptyImage
deriving DecidableEq

/-- Outcome of one enhancement run: the artifact set, or a pipeline
error. -/
inductive EnhanceResult
  | ok (a : Artifacts)
  | error (e : PipeError)
deriving DecidableEq

/-- The processing pipeline of src/main.py lines 149-160, with the
hard-coded parameters (`n_clusters = 8`, `alpha = 0.7`) exposed as the
specification's `clusterCount` and `blendAlpha` parameters: preprocess,
cluster, blend, collect the artifacts.  No parameter is inspected or
validated anywhere on this path, so every run produces `ok`. -/
def enhance (clahe : Img → Img) (km : KMeansLib) (rng : Nat) (img : Img)
    (n_clusters : Nat) (alpha : ℚ) : EnhanceResult :=
  let processed := preprocess_image clahe img
  let clustered := enhance_image_kmeans km rng processed n_clusters
  let enhanced := blend_images processed clustered alpha
  EnhanceResult.ok
    { original := img, preprocessed := processed,
      clustered := clustered, enhanced := enhanced }

/-- The script's pipeline exactly as written (src/main.py lines 150-152
and 155-160): `processed = preprocess_image(img_array)`,
`clustered = enhance_image_kmeans(processed, 8)`,
`enhanced = blend_images(processed, clustered)` with the default
`alpha=0.7`, gathered into the artifact record. -/
def pipelineRun (clahe : Img → Img) (km : KMeansLib) (rng : Nat)
    (img : Img) : Artifacts :=
  let processed := preprocess_image clahe img
  let clustered := enhance_image_kmeans km rng processed 8
  let enhanced := blend_images processed clustered (7/10)
  { original := img, preprocessed := processed,
    clustered := clustered, enhanced := enhanced }

/-- All samples of the buffer carry one value. -/
def Uniform (a : Img) (v : ℚ) : Prop := ∀ x ∈ pixels a, x = v

instance (a : Img) (v : ℚ) : Decidable (Uniform a v) :=
  inferInstanceAs (Decidable (∀ x ∈ pixels a, x = v))

/-- Number of distinct sample values in the buffer. -/
def distinctCount (a : Img) : Nat := (pixels a).toFinset.card

/-- A stand-in external contrast normalizer used to instantiate the
abstract CLAHE parameter in concrete witnesses; it satisfies the
shape-preservation contract the theorems hypothesise. -/
def clahe0 : Img → Img := id

/-- A stand-in KMeans library for concrete witnesses: three fixed
centroids 0, 128, 255, each sample labelled by nearest thirds.  It
ignores the ambient generator state, as a seeded fit does. -/
def kmTest : KMeansLib :=
  ⟨fun _ _ _ d =>
    (d.map (fun x => if x ≤ 85 then 0 else if x ≤ 170 then 1 else 2),
     [0, 128, 255])⟩

/-- A stand-in KMeans library for the two-valued witnesses: cluster 0 is
the samples equal to 0 (centroid 0), cluster 1 the rest (centroid 200). -/
def kmBi : KMeansLib :=
  ⟨fun _ _ _ d => (d.map (fun x => if x = 0 then 0 else 1), [0, 200])⟩

/-- A stand-in KMeans library for the uniform-input witnesses: every
sample labelled 0, and all requested centroids equal to the first sample
(on constant data every centroid is the constant, as a converged fit
returns). -/
def kmU : KMeansLib :=
  ⟨fun k _ _ d => (List.replicate d.length 0, List.replicate k (d.headD 0))⟩

/-- A stand-in OpenCV resampler for concrete witnesses: an all-zero
buffer of the requested output shape. -/
def cvr0 : ResizeLib :=
  ⟨fun _ nh nw _ => List.replicate nh (List.replicate nw 0)⟩

theorem height_pmap (f : ℚ → ℚ) (a : Img) : height (pmap f a) = height a :=
  List.length_map a _

theorem width_pmap (f : ℚ → ℚ) (a : Img) : width (pmap f a) = width a := by
  cases a <;> simp [pmap, width]

theorem shape_rescale_cast (a : Img) : shape (rescale_cast a) = shape a := by
  simp [shape, rescale_cast, height_pmap, width_pmap]

theorem height_pzip (f : ℚ → ℚ → ℚ) (a b : Img) :
    height (pzip f a b) = min (height a) (height b) := by
  simp [pzip, height]

theorem width_pzip (f : ℚ → ℚ → ℚ) (a b : Img) :
    width (pzip f a b) = min (width a) (width b) := by
  cases a with
  | nil => simp [pzip, width]
  | cons r rs =>
    cases b with
    | nil => simp [pzip, width]
    | cons s ss => simp [pzip, width]

theorem height_reshapeLike (t : Img) (xs : List ℚ) :
    height (reshapeLike t xs) = height t := by
  induction t generalizing xs with
  | nil => rfl
  | cons r rs ih => simp [reshapeLike, height] at ih ⊢; exact ih _

theorem width_reshapeLike (t : Img) (xs : List ℚ) (h : width t ≤ xs.length) :
    width (reshapeLike t xs) = width t := by
  cases t with
  | nil => rfl
  | cons r rs =>
    simp [reshapeLike, width] at h ⊢
    omega

theorem width_le_length_pixels (a : Img) : width a ≤ (pixels a).length := by
  cases a with
  | nil => simp [width]
  | cons r rs => simp [width, pixels]

/-- A small concrete grayscale buffer used by several witnesses. -/
def img1 : Img := [[0, 128, 255]]

/-- C9: in the script's pipeline the Blender's non-clustered operand is
the preprocessed (CLAHE) image, never the raw original, and every
invocation uses the fixed constants: cluster count 8 and blend alpha
0.7 (src/main.py lines 150-152). -/
theorem blender_operand_and_fixed_constants (clahe : Img → Img)
    (km : KMeansLib) (rng : Nat) (img : Img) :
    pipelineRun clahe km rng img =
      { original := img
        preprocessed := preprocess_image clahe img
        clustered :=
          enhance_image_kmeans km rng (preprocess_image clahe img) 8
        enhanced :=
          blend_images (preprocess_image clahe img)
            (enhance_image_kmeans km rng (preprocess_image clahe img) 8)
            (7/10) } := rfl

/-- C1 counterexample: invoked with `clusterCount = 13`, which is outside
[2, 12], the pipeline does not reject the parameters: it runs to
completion and returns the artifact set, never an `InvalidParameter`
error.  No parameter-validation code exists in src/main.py. -/
theorem no_invalid_parameter_rejection_at_13 :
    12 < 13 ∧
      enhance clahe0 kmTest 0 img1 13 (7/10) ≠
        EnhanceResult.error PipeError.invalidParameter := by
  refine ⟨by norm_num, ?_⟩
  intro h
  simp [enhance] at h

/-- C1 amended: the code performs no parameter validation at all.  For
every cluster count and blend alpha, in range or not, `enhance` executes
the full pipeline and returns the artifact set; it never produces any
error, in particular never `InvalidParameter`. -/
theorem enhance_never_errors (clahe : Img → Img) (km : KMeansLib)
    (rng : Nat) (img : Img) (n_clusters : Nat) (alpha : ℚ)
    (e : PipeError) :
    enhance clahe km rng img n_clusters alpha ≠ EnhanceResult.error e := by
  intro h
  simp [enhance] at h

/-- C3: with the clustering seed fixed to 42 at the call site
(src/main.py line 71), the ambient random-generator state is irrelevant:
two runs on the identical input produce identical artifact sets
(original, preprocessed, clustered, enhanced).  The hypothesis is the
scikit-learn contract that a fit with a fixed `random_state` does not
depend on the global generator. -/
theorem pipeline_deterministic_fixed_seed (clahe : Img → Img)
    (km : KMeansLib) (img : Img) (rng rng' : Nat)
    (hdet : ∀ k s r r' d, km.fit k (some s) r d = km.fit k (some s) r' d) :
    pipelineRun clahe km rng img = pipelineRun clahe km rng' img := by
  simp only [pipelineRun, enhance_image_kmeans]
  rw [hdet 8 42 rng rng']

/-- Witness for C3: a concrete seeded library, two different ambient
generator states, identical results. -/
theorem pipeline_deterministic_fixed_seed_witness :
    pipelineRun clahe0 kmTest 0 img1 = pipelineRun clahe0 kmTest 7 img1 :=
  pipeline_deterministic_fixed_seed clahe0 kmTest img1 0 7
    (fun _ _ _ _ _ => rfl)

/-- Sample access with boundary-pixel replication (indices clamped into
range), as the specification's Edge Enhancer prescribes for pixels at the
image margin. -/
def pget (a : Img) (i j : Nat) : ℚ :=
  (a.getD (min i (height a - 1)) []).getD (min j (width a - 1)) 0

/-- Modelled from the spec: the Edge Enhancer's fixed 3x3 sharpening
convolution (center weight 5, four-connected neighbors weight -1, corners
0) with boundary-pixel replication, output clipped to 8-bit.  The
neighbor indices are clamped rather than offset into signed integers:
`i - 1` in ℕ sticks at 0 on the top and left edges and `min` sticks at
the bottom and right edges, which is exactly boundary replication.  No
such stage exists anywhere in src/main.py; this definition exists only to
state the claimed refinement and compare it with the code's pipeline. -/
def specSharpen3x3 (a : Img) : Img :=
  (List.range (height a)).map (fun i =>
    (List.range (width a)).map (fun j =>
      max 0 (min 255
        (5 * pget a i j - pget a (i - 1) j - pget a (i + 1) j
          - pget a i (j - 1) - pget a i (j + 1)))))

theorem rescale_cast_img1 :
    rescale_cast [[0, 128, 255]] = [[0, 128, 255]] := by
  have hmn : imin [[0, 128, 255]] = 0 := by
    norm_num [imin, pixels, min_def]
  have hmx : imax [[0, 128, 255]] = 255 := by
    norm_num [imax, pixels, max_def]
  norm_num [rescale_cast, hmn, hmx, pmap, rcFun, qfloor]

theorem clustered_img1 :
    enhance_image_kmeans kmTest 0 [[0, 128, 255]] 8 = [[0, 128, 255]] := by
  have hfit : (kmTest.fit 8 (some 42) 0 (pixels [[0, 128, 255]])).1.map
      (fun l => (kmTest.fit 8 (some 42) 0 (pixels [[0, 128, 255]])).2.getD
        l 0) = [0, 128, 255] := by
    norm_num [kmTest, pixels]
  have hresh : reshapeLike [[0, 128, 255]] [0, 128, 255] =
      [[0, 128, 255]] := by
    norm_num [reshapeLike]
  simp only [enhance_image_kmeans, hfit, hresh, rescale_cast_img1]

theorem blend_img1 :
    blend_images [[0, 128, 255]] [[0, 128, 255]] (7/10) =
      [[0, 128, 255]] := by
  have hpre : blend_pre [[0, 128, 255]] [[0, 128, 255]] (7/10) =
      [[0, 128, 255]] := by
    norm_num [blend_pre, pzip]
  simp only [blend_images, hpre, rescale_cast_img1]

theorem pipelineRun_img1 : pipelineRun clahe0 kmTest 0 img1 =
    { original := img1, preprocessed := img1,
      clustered := img1, enhanced := img1 } := by
  simp only [img1, pipelineRun, preprocess_image, clahe0, id_eq,
    clustered_img1, blend_img1]

/-- C2 counterexample: on the concrete input `[[0, 128, 255]]` (with
concrete stand-ins for the external CLAHE and KMeans routines) the
pipeline's final `enhanced` artifact is the blended image itself, which
differs from the spec's sharpening convolution applied to that blended
image: the code's pipeline (src/main.py lines 150-152) contains no Edge
Enhancer stage. -/
theorem enhanced_is_not_sharpened_blend :
    (pipelineRun clahe0 kmTest 0 img1).enhanced ≠
      specSharpen3x3
        (blend_images (pipelineRun clahe0 kmTest 0 img1).preprocessed
          (pipelineRun clahe0 kmTest 0 img1).clustered (7/10)) := by
  have h3 : List.range 3 = [0, 1, 2] := by
    simp [List.range_succ]
  have h1 : List.range 1 = [0] := by
    simp [List.range_succ]
  have h4 : specSharpen3x3 [[0, 128, 255]] = [[0, 129, 255]] := by
    simp only [specSharpen3x3, height, width, List.length_cons,
      List.length_nil, h3, h1, List.map_cons, List.map_nil]
    norm_num [pget, height, width, min_def, max_def]
  rw [pipelineRun_img1]
  simp only [img1, blend_img1, h4]
  norm_num

/-- C2 amended: the pipeline runs Contrast Normalizer, Intensity
Clusterer and Blender in strict sequence, each stage's output retained as
an artifact; the final `enhanced` artifact is the blended image itself —
no edge-enhancement convolution stage is applied after blending. -/
theorem pipeline_three_stages_no_sharpening (clahe : Img → Img)
    (km : KMeansLib) (rng : Nat) (img : Img) :
    (pipelineRun clahe km rng img).preprocessed = preprocess_image clahe img
    ∧ (pipelineRun clahe km rng img).clustered =
        enhance_image_kmeans km rng
          ((pipelineRun clahe km rng img).preprocessed) 8
    ∧ (pipelineRun clahe km rng img).enhanced =
        blend_images ((pipelineRun clahe km rng img).preprocessed)
          ((pipelineRun clahe km rng img).clustered) (7/10) :=
  ⟨rfl, rfl, rfl⟩

theorem shape_pzip (f : ℚ → ℚ → ℚ) (a b : Img) :
    shape (pzip f a b) = (min (height a) (height b),
      min (width a) (width b)) := by
  simp [shape, height_pzip, width_pzip]

theorem shape_enhance_image_kmeans (km : KMeansLib) (rng : Nat) (a : Img)
    (k : Nat)
    (hlen : (km.fit k (some 42) rng (pixels a)).1.length =
      (pixels a).length) :
    shape (enhance_image_kmeans km rng a k) = shape a := by
  simp only [enhance_image_kmeans]
  rw [shape_rescale_cast]
  have hx : ((km.fit k (some 42) rng (pixels a)).1.map
      (fun l => (km.fit k (some 42) rng (pixels a)).2.getD l 0)).length =
      (pixels a).length := by
    rw [List.length_map]; exact hlen
  have hw : width a ≤ ((km.fit k (some 42) rng (pixels a)).1.map
      (fun l => (km.fit k (some 42) rng (pixels a)).2.getD l 0)).length := by
    rw [hx]; exact width_le_length_pixels a
  simp only [shape]
  rw [height_reshapeLike, width_reshapeLike _ _ hw]

theorem shape_blend_images (o c : Img) (alpha : ℚ)
    (h : shape c = shape o) :
    shape (blend_images o c alpha) = shape o := by
  simp only [blend_images, blend_pre]
  rw [shape_rescale_cast, shape_pzip]
  have h1 : height c = height o := congrArg Prod.fst h
  have h2 : width c = width o := congrArg Prod.snd h
  simp [shape, h1, h2]

/-- C4: every artifact of the pipeline result has the same height and
width as the grayscale input (the pipeline performs no resize, so the
grayscale input is the processing input itself); consequently all four
artifacts share identical dimensions.  Hypotheses: the documented CLAHE
contract that the preprocessed buffer has the input's shape, and the
scikit-learn contract that `labels_` has one entry per sample. -/
theorem artifacts_shape_invariance (clahe : Img → Img) (km : KMeansLib)
    (rng : Nat) (img : Img)
    (hclahe : shape (clahe img) = shape img)
    (hlen : (km.fit 8 (some 42) rng (pixels (clahe img))).1.length =
      (pixels (clahe img)).length) :
    shape (pipelineRun clahe km rng img).original = shape img ∧
    shape (pipelineRun clahe km rng img).preprocessed = shape img ∧
    shape (pipelineRun clahe km rng img).clustered = shape img ∧
    shape (pipelineRun clahe km rng img).enhanced = shape img := by
  have hc : shape (enhance_image_kmeans km rng (clahe img) 8) =
      shape img := by
    rw [shape_enhance_image_kmeans km rng (clahe img) 8 hlen]; exact hclahe
  refine ⟨rfl, hclahe, hc, ?_⟩
  have hb : shape (blend_images (clahe img)
      (enhance_image_kmeans km rng (clahe img) 8) (7/10)) =
      shape (clahe img) := by
    apply shape_blend_images
    rw [hc, hclahe]
  simpa [pipelineRun, preprocess_image, hclahe] using hb

/-- Witness for C4: concrete libraries and input; the four artifact
shapes all equal the input's 1 x 3 shape. -/
theorem artifacts_shape_invariance_witness :
    shape (pipelineRun clahe0 kmTest 0 img1).original = shape img1 ∧
    shape (pipelineRun clahe0 kmTest 0 img1).preprocessed = shape img1 ∧
    shape (pipelineRun clahe0 kmTest 0 img1).clustered = shape img1 ∧
    shape (pipelineRun clahe0 kmTest 0 img1).enhanced = shape img1 :=
  artifacts_shape_invariance clahe0 kmTest 0 img1 rfl
    (by simp [kmTest, pixels, img1, clahe0])

theorem width_cons (r : List ℚ) (rs : Img) : width (r :: rs) = r.length :=
  rfl

/-- A concrete 100 x 59 all-zero buffer for the resize claims. -/
def imgBig : Img := List.replicate 100 (List.replicate 59 (0 : ℚ))

theorem height_imgBig : height imgBig = 100 := by
  simp [height, imgBig]

theorem width_imgBig : width imgBig = 59 := by
  have h : imgBig = List.replicate 59 (0 : ℚ) ::
      List.replicate 99 (List.replicate 59 (0 : ℚ)) := by
    simp [imgBig, List.replicate_succ]
  rw [h, width_cons]
  simp

theorem shape_replicate (n m : Nat) (h : n ≠ 0) :
    shape (List.replicate n (List.replicate m (0 : ℚ))) = (n, m) := by
  cases n with
  | zero => exact absurd rfl h
  | succ k =>
    simp [shape, height, List.replicate_succ, width_cons]

/-- C7 counterexample: for a 100 x 59 input and maximum dimension 10 the
code truncates `59 * (10/100) = 5.9` to width 5 (Python `int()`), while
the claimed round-to-nearest scaling predicts width 6.  The larger
dimension is still exactly 10. -/
theorem resize_truncates_width_not_rounds :
    10 < max (height imgBig) (width imgBig) ∧
    shape (resize_image cvr0 imgBig 10) = (10, 5) ∧
    round ((width imgBig : ℚ) * scaleOf imgBig 10) = 6 := by
  have hh : height imgBig = 100 := height_imgBig
  have hw : width imgBig = 59 := width_imgBig
  have hscale : scaleOf imgBig 10 = 1/10 := by
    rw [scaleOf, hh, hw]; norm_num
  have hnh : newH imgBig 10 = 10 := by
    rw [newH, hscale, hh]; norm_num [qfloor]; decide
  have hnw : newW imgBig 10 = 5 := by
    rw [newW, hscale, hw]; norm_num [qfloor]; decide
  refine ⟨by rw [hh, hw]; norm_num, ?_, ?_⟩
  · have hbr : resize_image cvr0 imgBig 10 =
        cvr0.resize imgBig 10 5 Interp.inter_area := by
      rw [resize_image, if_pos (by rw [hh, hw]; norm_num), hnh, hnw]
    rw [hbr]
    simp only [cvr0]
    exact shape_replicate 10 5 (by norm_num)
  · rw [hw, hscale, round_eq]
    norm_num

theorem qfloor_natCast (n : Nat) : qfloor (n : ℚ) = n := by
  rw [qfloor_eq_floor]; exact Int.floor_natCast n

theorem scale_floor_le_M (d mx M : Nat) (hd : d ≤ mx) (h0 : 0 < mx) :
    (qfloor ((d : ℚ) * ((M : ℚ) / (mx : ℚ)))).toNat ≤ M := by
  have hmx : (0 : ℚ) < (mx : ℚ) := by exact_mod_cast h0
  have hle : (d : ℚ) * ((M : ℚ) / (mx : ℚ)) ≤ (M : ℚ) := by
    have h1 : (d : ℚ) * ((M : ℚ) / (mx : ℚ)) ≤
        (mx : ℚ) * ((M : ℚ) / (mx : ℚ)) := by
      apply mul_le_mul_of_nonneg_right (by exact_mod_cast hd)
      positivity
    have h2 : (mx : ℚ) * ((M : ℚ) / (mx : ℚ)) = (M : ℚ) := by
      field_simp
    rw [h2] at h1; exact h1
  rw [qfloor_eq_floor]
  have h3 : ⌊(d : ℚ) * ((M : ℚ) / (mx : ℚ))⌋ ≤ (M : ℤ) := by
    calc ⌊(d : ℚ) * ((M : ℚ) / (mx : ℚ))⌋ ≤ ⌊(M : ℚ)⌋ :=
          Int.floor_le_floor hle
      _ = (M : ℤ) := Int.floor_natCast M
  exact Int.toNat_le.mpr h3

theorem scale_floor_eq_M (mx M : Nat) (h0 : 0 < mx) :
    (qfloor ((mx : ℚ) * ((M : ℚ) / (mx : ℚ)))).toNat = M := by
  have hmx : ((mx : ℚ)) ≠ 0 := by
    exact_mod_cast Nat.pos_iff_ne_zero.mp h0
  have h1 : (mx : ℚ) * ((M : ℚ) / (mx : ℚ)) = (M : ℚ) := by
    field_simp
  rw [h1, qfloor_natCast]
  exact Int.toNat_natCast M

theorem scale_floor_no_upscale (d mx M : Nat) (hM : M ≤ mx) :
    (qfloor ((d : ℚ) * ((M : ℚ) / (mx : ℚ)))).toNat ≤ d := by
  rcases Nat.eq_zero_or_pos mx with h0 | h0
  · subst h0
    simp [qfloor]
  · have hmx : (0 : ℚ) < (mx : ℚ) := by exact_mod_cast h0
    have hs : (M : ℚ) / (mx : ℚ) ≤ 1 := by
      rw [div_le_one hmx]; exact_mod_cast hM
    have hle : (d : ℚ) * ((M : ℚ) / (mx : ℚ)) ≤ (d : ℚ) := by
      calc (d : ℚ) * ((M : ℚ) / (mx : ℚ)) ≤ (d : ℚ) * 1 := by
            apply mul_le_mul_of_nonneg_left hs (by positivity)
        _ = (d : ℚ) := mul_one _
    rw [qfloor_eq_floor]
    have h3 : ⌊(d : ℚ) * ((M : ℚ) / (mx : ℚ))⌋ ≤ (d : ℤ) := by
      calc ⌊(d : ℚ) * ((M : ℚ) / (mx : ℚ))⌋ ≤ ⌊(d : ℚ)⌋ :=
            Int.floor_le_floor hle
        _ = (d : ℤ) := Int.floor_natCast d
    exact Int.toNat_le.mpr h3

/-- C7 amended: when `max(h, w) > M` the resizer scales both dimensions
by `M / max(h, w)` and truncates (floors) each to an integer pixel count
— the larger output dimension is then exactly `M`, neither dimension
grows, and resampling uses `cv2.INTER_AREA`; when `max(h, w) ≤ M` the
buffer is returned unchanged.  The hypothesis is the documented OpenCV
contract that `cv2.resize` returns a buffer of the requested dsize. -/
theorem resize_image_spec (cv : ResizeLib) (img : Img) (M : Nat)
    (hres : shape (cv.resize img (newH img M) (newW img M)
      Interp.inter_area) = (newH img M, newW img M)) :
    (max (height img) (width img) > M →
      shape (resize_image cv img M) = (newH img M, newW img M) ∧
      max (newH img M) (newW img M) = M ∧
      newH img M ≤ height img ∧ newW img M ≤ width img) ∧
    (max (height img) (width img) ≤ M → resize_image cv img M = img) := by
  constructor
  · intro hgt
    have h0 : 0 < max (height img) (width img) := lt_of_le_of_lt
      (Nat.zero_le M) hgt
    have hM : M ≤ max (height img) (width img) := le_of_lt hgt
    have hbr : resize_image cv img M =
        cv.resize img (newH img M) (newW img M) Interp.inter_area := by
      rw [resize_image, if_pos hgt]
    refine ⟨by rw [hbr]; exact hres, ?_, ?_, ?_⟩
    · rcases Nat.le_total (width img) (height img) with hcase | hcase
      · have hmx : max (height img) (width img) = height img :=
          Nat.max_eq_left hcase
        have h1 : newH img M = M := by
          rw [newH, scaleOf, hmx]
          exact scale_floor_eq_M (height img) M (hmx ▸ h0)
        have h2 : newW img M ≤ M := by
          rw [newW, scaleOf, hmx]
          exact scale_floor_le_M (width img) (height img) M hcase
            (hmx ▸ h0)
        rw [h1]; exact Nat.max_eq_left h2
      · have hmx : max (height img) (width img) = width img :=
          Nat.max_eq_right hcase
        have h1 : newW img M = M := by
          rw [newW, scaleOf, hmx]
          exact scale_floor_eq_M (width img) M (hmx ▸ h0)
        have h2 : newH img M ≤ M := by
          rw [newH, scaleOf, hmx]
          exact scale_floor_le_M (height img) (width img) M hcase
            (hmx ▸ h0)
        rw [h1]; exact Nat.max_eq_right h2
    · rw [newH, scaleOf]
      exact scale_floor_no_upscale (height img) _ M hM
    · rw [newW, scaleOf]
      exact scale_floor_no_upscale (width img) _ M hM
  · intro hle
    have hng : ¬ (max (height img) (width img) > M) := not_lt.mpr hle
    rw [resize_image, if_neg hng]

/-- Witness for C7: the concrete 100 x 59 buffer with maximum dimension
10 lands in the downscale branch with output shape (10, 5). -/
theorem resize_image_spec_witness :
    shape (resize_image cvr0 imgBig 10) = (newH imgBig 10, newW imgBig 10)
    ∧ max (newH imgBig 10) (newW imgBig 10) = 10
    ∧ newH imgBig 10 ≤ height imgBig ∧ newW imgBig 10 ≤ width imgBig :=
  (resize_image_spec cvr0 imgBig 10 (by
    have hscale : scaleOf imgBig 10 = 1/10 := by
      rw [scaleOf, height_imgBig, width_imgBig]; norm_num
    have hnh : newH imgBig 10 = 10 := by
      rw [newH, hscale, height_imgBig]; norm_num [qfloor]; decide
    have hnw : newW imgBig 10 = 5 := by
      rw [newW, hscale, width_imgBig]; norm_num [qfloor]; decide
    rw [hnh, hnw]
    simp only [cvr0]
    exact shape_replicate 10 5 (by norm_num))).1
    (by rw [height_imgBig, width_imgBig]; norm_num)

theorem zipWith_right_of_length_eq (r s : List ℚ) (h : r.length = s.length) :
    List.zipWith (fun _ y => y) r s = s := by
  induction r generalizing s with
  | nil =>
    cases s with
    | nil => rfl
    | cons b bs => simp at h
  | cons a as ih =>
    cases s with
    | nil => simp at h
    | cons b bs =>
      simp only [List.zipWith_cons_cons, List.cons.injEq]
      exact ⟨trivial, ih bs (by simpa using h)⟩

theorem zipWith_left_of_length_eq (r s : List ℚ) (h : r.length = s.length) :
    List.zipWith (fun x _ => x) r s = r := by
  induction r generalizing s with
  | nil => rfl
  | cons a as ih =>
    cases s with
    | nil => simp at h
    | cons b bs =>
      simp only [List.zipWith_cons_cons, List.cons.injEq]
      exact ⟨trivial, ih bs (by simpa using h)⟩

/-- Two buffers with the same list of row lengths (same height and the
same width on every row). -/
def SameRowShape (a b : Img) : Prop := a.map List.length = b.map List.length

instance (a b : Img) : Decidable (SameRowShape a b) :=
  inferInstanceAs (Decidable (a.map List.length = b.map List.length))

theorem pzip_congr (f g : ℚ → ℚ → ℚ) (a b : Img)
    (h : ∀ x y, f x y = g x y) : pzip f a b = pzip g a b := by
  have hfg : f = g := funext (fun x => funext (fun y => h x y))
  rw [hfg]

theorem pzip_right (a b : Img) (h : SameRowShape a b) :
    pzip (fun _ y => y) a b = b := by
  induction a generalizing b with
  | nil =>
    cases b with
    | nil => rfl
    | cons s ss => simp [SameRowShape] at h
  | cons r rs ih =>
    cases b with
    | nil => simp [SameRowShape] at h
    | cons s ss =>
      simp only [SameRowShape, List.map_cons, List.cons.injEq] at h
      simp only [pzip, List.zipWith_cons_cons, List.cons.injEq]
      constructor
      · exact zipWith_right_of_length_eq r s h.1
      · exact ih ss h.2

theorem pzip_left (a b : Img) (h : SameRowShape a b) :
    pzip (fun x _ => x) a b = a := by
  induction a generalizing b with
  | nil => rfl
  | cons r rs ih =>
    cases b with
    | nil => simp [SameRowShape] at h
    | cons s ss =>
      simp only [SameRowShape, List.map_cons, List.cons.injEq] at h
      simp only [pzip, List.zipWith_cons_cons, List.cons.injEq]
      constructor
      · exact zipWith_left_of_length_eq r s h.1
      · exact ih ss h.2

/-- C6: the Blender computes `alpha * clustered + (1 - alpha) * original`
pointwise and then unconditionally rescale-and-casts; at the boundaries,
`alpha = 1` makes the pre-rescale blend exactly the clustered buffer and
`alpha = 0` makes it exactly the normalized buffer.  The hypothesis asks
the two buffers to have identical row shapes, as every pipeline pair
does. -/
theorem blend_formula_and_boundaries (o c : Img) (alpha : ℚ)
    (h : SameRowShape o c) :
    blend_images o c alpha = rescale_cast (blend_pre o c alpha) ∧
    blend_pre o c 1 = c ∧
    blend_pre o c 0 = o := by
  refine ⟨rfl, ?_, ?_⟩
  · have h1 : blend_pre o c 1 = pzip (fun _ y => y) o c := by
      apply pzip_congr
      intro x y; ring
    rw [h1]; exact pzip_right o c h
  · have h0 : blend_pre o c 0 = pzip (fun x _ => x) o c := by
      apply pzip_congr
      intro x y; ring
    rw [h0]; exact pzip_left o c h

/-- Witness for C6: a concrete pair of 1 x 2 buffers. -/
theorem blend_formula_and_boundaries_witness :
    blend_images [[10, 20]] [[30, 40]] (7/10) =
      rescale_cast (blend_pre [[10, 20]] [[30, 40]] (7/10)) ∧
    blend_pre [[10, 20]] [[30, 40]] 1 = [[30, 40]] ∧
    blend_pre [[10, 20]] [[30, 40]] 0 = [[10, 20]] :=
  blend_formula_and_boundaries [[10, 20]] [[30, 40]] (7/10)
    (by simp [SameRowShape])

theorem foldl_min_le_init (xs : List ℚ) (x : ℚ) : xs.foldl min x ≤ x := by
  induction xs generalizing x with
  | nil => exact le_refl x
  | cons y ys ih => exact le_trans (ih (min x y)) (min_le_left x y)

theorem foldl_min_le_mem (xs : List ℚ) (x : ℚ) :
    ∀ y ∈ xs, xs.foldl min x ≤ y := by
  induction xs generalizing x with
  | nil => intro y hy; cases hy
  | cons z zs ih =>
    intro y hy
    rcases List.mem_cons.mp hy with h | h
    · subst h
      exact le_trans (foldl_min_le_init zs (min x y)) (min_le_right x y)
    · exact ih (min x z) y h

theorem foldl_min_mem (xs : List ℚ) (x : ℚ) : xs.foldl min x ∈ x :: xs := by
  induction xs generalizing x with
  | nil => simp
  | cons y ys ih =>
    rw [List.foldl_cons]
    rcases List.mem_cons.mp (ih (min x y)) with h1 | h1
    · rcases min_choice x y with hc | hc
      · rw [h1, hc]; exact List.mem_cons_self x _
      · rw [h1, hc]
        exact List.mem_cons_of_mem x (List.mem_cons_self y ys)
    · exact List.mem_cons_of_mem x (List.mem_cons_of_mem y h1)

theorem le_foldl_max_init (xs : List ℚ) (x : ℚ) : x ≤ xs.foldl max x := by
  induction xs generalizing x with
  | nil => exact le_refl x
  | cons y ys ih => exact le_trans (le_max_left x y) (ih (max x y))

theorem le_foldl_max_mem (xs : List ℚ) (x : ℚ) :
    ∀ y ∈ xs, y ≤ xs.foldl max x := by
  induction xs generalizing x with
  | nil => intro y hy; cases hy
  | cons z zs ih =>
    intro y hy
    rcases List.mem_cons.mp hy with h | h
    · subst h
      exact le_trans (le_max_right x y) (le_foldl_max_init zs (max x y))
    · exact ih (max x z) y h

theorem foldl_max_mem (xs : List ℚ) (x : ℚ) : xs.foldl max x ∈ x :: xs := by
  induction xs generalizing x with
  | nil => simp
  | cons y ys ih =>
    rw [List.foldl_cons]
    rcases List.mem_cons.mp (ih (max x y)) with h1 | h1
    · rcases max_choice x y with hc | hc
      · rw [h1, hc]; exact List.mem_cons_self x _
      · rw [h1, hc]
        exact List.mem_cons_of_mem x (List.mem_cons_self y ys)
    · exact List.mem_cons_of_mem x (List.mem_cons_of_mem y h1)

theorem imin_le (a : Img) : ∀ x ∈ pixels a, imin a ≤ x := by
  intro x hx
  cases hp : pixels a with
  | nil => rw [hp] at hx; cases hx
  | cons y ys =>
    have h1 : imin a = ys.foldl min y := by simp only [imin, hp]
    rw [h1]
    rw [hp] at hx
    rcases List.mem_cons.mp hx with h | h
    · subst h; exact foldl_min_le_init ys x
    · exact foldl_min_le_mem ys y x h

theorem le_imax (a : Img) : ∀ x ∈ pixels a, x ≤ imax a := by
  intro x hx
  cases hp : pixels a with
  | nil => rw [hp] at hx; cases hx
  | cons y ys =>
    have h1 : imax a = ys.foldl max y := by simp only [imax, hp]
    rw [h1]
    rw [hp] at hx
    rcases List.mem_cons.mp hx with h | h
    · subst h; exact le_foldl_max_init ys x
    · exact le_foldl_max_mem ys y x h

theorem imin_mem (a : Img) (h : pixels a ≠ []) : imin a ∈ pixels a := by
  cases hp : pixels a with
  | nil => exact absurd hp h
  | cons y ys =>
    have h1 : imin a = ys.foldl min y := by simp only [imin, hp]
    rw [h1]
    exact foldl_min_mem ys y

theorem imax_mem (a : Img) (h : pixels a ≠ []) : imax a ∈ pixels a := by
  cases hp : pixels a with
  | nil => exact absurd hp h
  | cons y ys =>
    have h1 : imax a = ys.foldl max y := by simp only [imax, hp]
    rw [h1]
    exact foldl_max_mem ys y

theorem pixels_pmap (f : ℚ → ℚ) (a : Img) :
    pixels (pmap f a) = (pixels a).map f := by
  simp only [pixels, pmap]
  exact (List.map_flatten f a).symm

/-- OpenCV's degenerate minmax normalization: on a constant buffer the
scale factor is 0 and every output sample is 0. -/
theorem rescale_cast_of_uniform (a : Img) (v : ℚ) (hu : Uniform a v) :
    rescale_cast a = pmap (fun _ => 0) a := by
  have h : ¬ imin a < imax a := by
    by_cases hp : pixels a = []
    · have h1 : imin a = 0 := by simp only [imin, hp]
      have h2 : imax a = 0 := by simp only [imax, hp]
      rw [h1, h2]; exact lt_irrefl 0
    · have h1 : imin a = v := hu _ (imin_mem a hp)
      have h2 : imax a = v := hu _ (imax_mem a hp)
      rw [h1, h2]; exact lt_irrefl v
  rw [rescale_cast, rcFun, if_neg h]

theorem uniform_pmap_zero (a : Img) : Uniform (pmap (fun _ => 0) a) 0 := by
  intro x hx
  rw [pixels_pmap] at hx
  rcases List.mem_map.mp hx with ⟨y, _, hxy⟩
  exact hxy.symm

theorem mem_pixels_reshapeLike (t : Img) (xs : List ℚ) (x : ℚ)
    (h : x ∈ pixels (reshapeLike t xs)) : x ∈ xs := by
  induction t generalizing xs with
  | nil => simp [reshapeLike, pixels] at h
  | cons r rs ih =>
    simp only [reshapeLike, pixels, List.flatten_cons] at h
    rcases List.mem_append.mp h with h1 | h1
    · exact List.take_subset _ _ h1
    · exact List.drop_subset _ _ (ih _ h1)

theorem reshapeLike_pixels_self (a : Img) : reshapeLike a (pixels a) = a := by
  induction a with
  | nil => rfl
  | cons r rs ih =>
    simp only [pixels, List.flatten_cons, reshapeLike, List.take_left,
      List.drop_left]
    have ih2 : reshapeLike rs rs.flatten = rs := ih
    rw [ih2]

theorem toFinset_map_eq_image (l : List ℚ) (f : ℚ → ℚ) :
    (l.map f).toFinset = l.toFinset.image f := by
  ext x; simp

theorem distinctCount_rescale_le (a : Img) :
    distinctCount (rescale_cast a) ≤ distinctCount a := by
  rw [distinctCount, distinctCount, rescale_cast, pixels_pmap,
    toFinset_map_eq_image]
  exact Finset.card_image_le

/-- On a buffer with exactly two distinct sample values, minmax rescaling
sends the smaller one to 0 and the larger one to 255, so exactly two
distinct values remain. -/
theorem distinctCount_rescale_cast_eq_two (a : Img)
    (h2 : distinctCount a = 2) :
    distinctCount (rescale_cast a) = 2 := by
  have hne : pixels a ≠ [] := by
    intro hp
    rw [distinctCount, hp] at h2
    simp at h2
  have hminmem := imin_mem a hne
  have hmaxmem := imax_mem a hne
  have hne2 : imin a ≠ imax a := by
    intro he
    have hall : ∀ x ∈ pixels a, x = imin a := by
      intro x hx
      exact le_antisymm (he ▸ le_imax a x hx) (imin_le a x hx)
    have hsub : (pixels a).toFinset ⊆ {imin a} := by
      intro x hx
      rw [List.mem_toFinset] at hx
      rw [Finset.mem_singleton]
      exact hall x hx
    have hcard : (pixels a).toFinset.card ≤ 1 :=
      le_trans (Finset.card_le_card hsub) (by simp)
    rw [distinctCount] at h2
    omega
  have hlt : imin a < imax a := lt_of_le_of_ne (imin_le a _ hmaxmem) hne2
  have hSsub : ({imin a, imax a} : Finset ℚ) ⊆ (pixels a).toFinset := by
    intro x hx
    rcases Finset.mem_insert.mp hx with h | h
    · subst h; exact List.mem_toFinset.mpr hminmem
    · rw [Finset.mem_singleton] at h
      subst h; exact List.mem_toFinset.mpr hmaxmem
  have hcardpair : ({imin a, imax a} : Finset ℚ).card = 2 := by
    rw [Finset.card_insert_of_not_mem (by simp [hne2]),
      Finset.card_singleton]
  have hS : ({imin a, imax a} : Finset ℚ) = (pixels a).toFinset := by
    apply Finset.eq_of_subset_of_card_le hSsub
    rw [distinctCount] at h2
    rw [h2, hcardpair]
  rw [distinctCount, rescale_cast, pixels_pmap, toFinset_map_eq_image,
    ← hS]
  have hf : rcFun (imin a) (imax a) =
      fun x => ((qfloor ((x - imin a) * 255 / (imax a - imin a)) : ℤ) :
        ℚ) := by
    rw [rcFun, if_pos hlt]
  rw [hf, Finset.image_insert, Finset.image_singleton]
  have hd : imax a - imin a ≠ 0 := sub_ne_zero.mpr (Ne.symm hne2)
  have hfmn : ((qfloor ((imin a - imin a) * 255 / (imax a - imin a)) :
      ℤ) : ℚ) = 0 := by
    have h0 : (imin a - imin a) * 255 / (imax a - imin a) = 0 := by
      rw [sub_self, zero_mul, zero_div]
    rw [h0, qfloor_eq_floor]
    norm_num
  have hfmx : ((qfloor ((imax a - imin a) * 255 / (imax a - imin a)) :
      ℤ) : ℚ) = 255 := by
    have h0 : (imax a - imin a) * 255 / (imax a - imin a) = 255 := by
      rw [mul_comm, mul_div_assoc, div_self hd, mul_one]
    rw [h0, qfloor_eq_floor]
    norm_num
  rw [hfmn, hfmx]
  rw [Finset.card_insert_of_not_mem (by norm_num), Finset.card_singleton]

/-- C5: the Intensity Clusterer replaces every sample by its cluster's
centroid (`centers[labels]`) and minmax-rescales the result to 8-bit;
with the scikit-learn contracts that every label indexes a centroid and
that `cluster_centers_` has `n_clusters` entries, the clustered artifact
carries at most `n_clusters` distinct values; and when a fit with
`n_clusters = 2` reconstructs a two-valued buffer exactly (each sample
mapped to its own value, which is how a converged 2-means fit behaves on
bimodal data), the clustered artifact carries exactly 2 distinct
values. -/
theorem clusterer_centroid_replacement_distinct (km : KMeansLib)
    (rng : Nat) (norm : Img) (k : Nat) :
    (enhance_image_kmeans km rng norm k =
      rescale_cast (reshapeLike norm
        ((km.fit k (some 42) rng (pixels norm)).1.map
          (fun l => (km.fit k (some 42) rng (pixels norm)).2.getD l 0)))) ∧
    ((∀ l ∈ (km.fit k (some 42) rng (pixels norm)).1,
        l < (km.fit k (some 42) rng (pixels norm)).2.length) →
      (km.fit k (some 42) rng (pixels norm)).2.length = k →
      distinctCount (enhance_image_kmeans km rng norm k) ≤ k) ∧
    (k = 2 →
      ((km.fit k (some 42) rng (pixels norm)).1.map
        (fun l => (km.fit k (some 42) rng (pixels norm)).2.getD l 0)) =
          pixels norm →
      distinctCount norm = 2 →
      distinctCount (enhance_image_kmeans km rng norm k) = 2) := by
  refine ⟨rfl, ?_, ?_⟩
  · intro hlab hclen
    have hstep1 : distinctCount (enhance_image_kmeans km rng norm k) ≤
        distinctCount (reshapeLike norm
          ((km.fit k (some 42) rng (pixels norm)).1.map
            (fun l => (km.fit k (some 42) rng (pixels norm)).2.getD
              l 0))) :=
      distinctCount_rescale_le _
    have hsub1 : (pixels (reshapeLike norm
        ((km.fit k (some 42) rng (pixels norm)).1.map
          (fun l => (km.fit k (some 42) rng (pixels norm)).2.getD
            l 0)))).toFinset ⊆
        ((km.fit k (some 42) rng (pixels norm)).2).toFinset := by
      intro x hx
      rw [List.mem_toFinset] at hx
      rw [List.mem_toFinset]
      have hx2 := mem_pixels_reshapeLike _ _ _ hx
      rcases List.mem_map.mp hx2 with ⟨l, hl, hxl⟩
      have hllt := hlab l hl
      rw [← hxl, List.getD_eq_getElem _ _ hllt]
      exact List.getElem_mem hllt
    have hstep2 : distinctCount (reshapeLike norm
        ((km.fit k (some 42) rng (pixels norm)).1.map
          (fun l => (km.fit k (some 42) rng (pixels norm)).2.getD
            l 0))) ≤
        ((km.fit k (some 42) rng (pixels norm)).2).toFinset.card :=
      Finset.card_le_card hsub1
    have hstep3 :
        ((km.fit k (some 42) rng (pixels norm)).2).toFinset.card ≤
        ((km.fit k (some 42) rng (pixels norm)).2).length :=
      List.toFinset_card_le _
    omega
  · intro _ hmap hbi
    have h1 : enhance_image_kmeans km rng norm k =
        rescale_cast norm := by
      show rescale_cast _ = rescale_cast norm
      rw [hmap, reshapeLike_pixels_self]
    rw [h1]
    exact distinctCount_rescale_cast_eq_two norm hbi

/-- A concrete bimodal 2 x 2 buffer: two intensity blocks 0 and 200. -/
def img3 : Img := [[0, 0], [200, 200]]

/-- Witness for C5: the two-valued buffer with the concrete two-centroid
library; at most 2 and exactly 2 distinct clustered values. -/
theorem clusterer_centroid_replacement_distinct_witness :
    distinctCount (enhance_image_kmeans kmBi 0 img3 2) ≤ 2 ∧
    distinctCount (enhance_image_kmeans kmBi 0 img3 2) = 2 :=
  ⟨(clusterer_centroid_replacement_distinct kmBi 0 img3 2).2.1
    (by norm_num [kmBi, pixels, img3])
    (by norm_num [kmBi, pixels, img3]),
   (clusterer_centroid_replacement_distinct kmBi 0 img3 2).2.2 rfl
    (by norm_num [kmBi, pixels, img3])
    (by norm_num [distinctCount, pixels, img3])⟩

/-- Shared degenerate-clustering lemma: when every centroid returned by
the fit equals `u` (as a converged fit on constant data returns) and
every label indexes a centroid, the clustered artifact is uniformly 0:
the segmented buffer is constant, so the minmax rescale maps every sample
to 0. -/
theorem clustered_uniform_zero (km : KMeansLib) (rng : Nat) (a : Img)
    (k : Nat) (u : ℚ)
    (hlab : ∀ l ∈ (km.fit k (some 42) rng (pixels a)).1,
      l < (km.fit k (some 42) rng (pixels a)).2.length)
    (hcent : ∀ c ∈ (km.fit k (some 42) rng (pixels a)).2, c = u) :
    Uniform (enhance_image_kmeans km rng a k) 0 := by
  have hxs : ∀ x ∈ ((km.fit k (some 42) rng (pixels a)).1.map
      (fun l => (km.fit k (some 42) rng (pixels a)).2.getD l 0)), x = u := by
    intro x hx
    rcases List.mem_map.mp hx with ⟨l, hl, hxl⟩
    have hllt := hlab l hl
    rw [← hxl, List.getD_eq_getElem _ _ hllt]
    exact hcent _ (List.getElem_mem hllt)
  have hseg : Uniform (reshapeLike a
      ((km.fit k (some 42) rng (pixels a)).1.map
        (fun l => (km.fit k (some 42) rng (pixels a)).2.getD l 0))) u := by
    intro x hx
    exact hxs x (mem_pixels_reshapeLike _ _ _ hx)
  have h1 : enhance_image_kmeans km rng a k =
      pmap (fun _ => 0) (reshapeLike a
        ((km.fit k (some 42) rng (pixels a)).1.map
          (fun l => (km.fit k (some 42) rng (pixels a)).2.getD l 0))) :=
    rescale_cast_of_uniform _ u hseg
  rw [h1]
  exact uniform_pmap_zero _

theorem mem_zipWith_row (f : ℚ → ℚ → ℚ) (r s : List ℚ) (x : ℚ)
    (h : x ∈ List.zipWith f r s) : ∃ p ∈ r, ∃ q ∈ s, x = f p q := by
  induction r generalizing s with
  | nil => simp at h
  | cons a as ih =>
    cases s with
    | nil => simp at h
    | cons b bs =>
      rw [List.zipWith_cons_cons] at h
      rcases List.mem_cons.mp h with h1 | h1
      · exact ⟨a, List.mem_cons_self a as, b, List.mem_cons_self b bs, h1⟩
      · rcases ih bs h1 with ⟨p, hp, q, hq, hx⟩
        exact ⟨p, List.mem_cons_of_mem a hp, q, List.mem_cons_of_mem b hq,
          hx⟩

theorem mem_pixels_pzip (f : ℚ → ℚ → ℚ) (a b : Img) (x : ℚ)
    (h : x ∈ pixels (pzip f a b)) :
    ∃ p ∈ pixels a, ∃ q ∈ pixels b, x = f p q := by
  induction a generalizing b with
  | nil => simp [pzip, pixels] at h
  | cons r rs ih =>
    cases b with
    | nil => simp [pzip, pixels] at h
    | cons s ss =>
      simp only [pzip, List.zipWith_cons_cons, pixels,
        List.flatten_cons] at h
      rcases List.mem_append.mp h with h1 | h1
      · rcases mem_zipWith_row f r s x h1 with ⟨p, hp, q, hq, hx⟩
        refine ⟨p, ?_, q, ?_, hx⟩
        · simp only [pixels, List.flatten_cons]
          exact List.mem_append.mpr (Or.inl hp)
        · simp only [pixels, List.flatten_cons]
          exact List.mem_append.mpr (Or.inl hq)
      · rcases ih ss (by simpa [pzip, pixels] using h1) with
          ⟨p, hp, q, hq, hx⟩
        refine ⟨p, ?_, q, ?_, hx⟩
        · simp only [pixels, List.flatten_cons]
          exact List.mem_append.mpr (Or.inr (by simpa [pixels] using hp))
        · simp only [pixels, List.flatten_cons]
          exact List.mem_append.mpr (Or.inr (by simpa [pixels] using hq))

theorem blend_images_uniform_zero (o c : Img) (alpha u : ℚ)
    (ho : Uniform o u) (hc : Uniform c 0) :
    Uniform (blend_images o c alpha) 0 := by
  have hpre : Uniform (blend_pre o c alpha) ((1 - alpha) * u) := by
    intro x hx
    rcases mem_pixels_pzip _ o c x hx with ⟨p, hp, q, hq, hxpq⟩
    rw [hxpq, ho p hp, hc q hq, mul_zero, zero_add]
  have h1 : blend_images o c alpha =
      pmap (fun _ => 0) (blend_pre o c alpha) :=
    rescale_cast_of_uniform _ _ hpre
  rw [h1]
  exact uniform_pmap_zero _

/-- A concrete uniform gray buffer (all samples 128). -/
def img4 : Img := [[128, 128], [128, 128]]

/-- C8: on a perfectly uniform input the pipeline raises no error — it
returns the four artifacts, all at the input's dimensions, and the
clustered artifact is a single uniform value (in fact 0, the degenerate
minmax rescale of a constant buffer).  The hypotheses are the library
contracts instantiated at this input: CLAHE preserves the shape and maps
the constant input to a constant buffer of some value `u`, and a
converged fit on constant data returns one label per sample, labels that
index centroids, and centroids all equal to `u`. -/
theorem uniform_input_no_error_degenerate (clahe : Img → Img)
    (km : KMeansLib) (rng : Nat) (img : Img) (k : Nat) (alpha : ℚ)
    (v u : ℚ)
    (_huni : Uniform img v)
    (hsh : shape (clahe img) = shape img)
    (_hu : Uniform (clahe img) u)
    (hlen : (km.fit k (some 42) rng (pixels (clahe img))).1.length =
      (pixels (clahe img)).length)
    (hlab : ∀ l ∈ (km.fit k (some 42) rng (pixels (clahe img))).1,
      l < (km.fit k (some 42) rng (pixels (clahe img))).2.length)
    (hcent : ∀ c ∈ (km.fit k (some 42) rng (pixels (clahe img))).2,
      c = u) :
    enhance clahe km rng img k alpha = EnhanceResult.ok
      { original := img, preprocessed := clahe img,
        clustered := enhance_image_kmeans km rng (clahe img) k,
        enhanced := blend_images (clahe img)
          (enhance_image_kmeans km rng (clahe img) k) alpha } ∧
    shape (clahe img) = shape img ∧
    shape (enhance_image_kmeans km rng (clahe img) k) = shape img ∧
    shape (blend_images (clahe img)
      (enhance_image_kmeans km rng (clahe img) k) alpha) = shape img ∧
    Uniform (enhance_image_kmeans km rng (clahe img) k) 0 := by
  have hkm : shape (enhance_image_kmeans km rng (clahe img) k) =
      shape img := by
    rw [shape_enhance_image_kmeans km rng (clahe img) k hlen]
    exact hsh
  refine ⟨rfl, hsh, hkm, ?_,
    clustered_uniform_zero km rng (clahe img) k u hlab hcent⟩
  have hb := shape_blend_images (clahe img)
    (enhance_image_kmeans km rng (clahe img) k) alpha (by rw [hkm, hsh])
  rw [hb]
  exact hsh

/-- Witness for C8: the uniform 2 x 2 gray buffer, CLAHE stand-in `id`,
the degenerate-fit stand-in, `clusterCount = 4`. -/
theorem uniform_input_no_error_degenerate_witness :
    enhance clahe0 kmU 0 img4 4 (7/10) = EnhanceResult.ok
      { original := img4, preprocessed := clahe0 img4,
        clustered := enhance_image_kmeans kmU 0 (clahe0 img4) 4,
        enhanced := blend_images (clahe0 img4)
          (enhance_image_kmeans kmU 0 (clahe0 img4) 4) (7/10) } ∧
    shape (clahe0 img4) = shape img4 ∧
    shape (enhance_image_kmeans kmU 0 (clahe0 img4) 4) = shape img4 ∧
    shape (blend_images (clahe0 img4)
      (enhance_image_kmeans kmU 0 (clahe0 img4) 4) (7/10)) = shape img4 ∧
    Uniform (enhance_image_kmeans kmU 0 (clahe0 img4) 4) 0 :=
  uniform_input_no_error_degenerate clahe0 kmU 0 img4 4 (7/10) 128 128
    (by norm_num [Uniform, pixels, img4])
    rfl
    (by norm_num [Uniform, pixels, img4, clahe0])
    (by simp [kmU, pixels, img4, clahe0])
    (by
      intro l hl
      simp only [kmU, pixels, img4, clahe0, id_eq, List.flatten_cons,
        List.flatten_nil, List.mem_replicate] at hl ⊢
      simp [hl.2])
    (by
      intro c hc
      simp only [kmU, pixels, img4, clahe0, id_eq, List.flatten_cons,
        List.flatten_nil, List.mem_replicate] at hc
      simp [hc.2])

/-- C10: the minmax rescale-and-cast maps every constant buffer to the
all-zero buffer (OpenCV sets the scale factor to 0 when max = min);
consequently, on a perfectly uniform input the pipeline's clustered and
enhanced artifacts are uniformly 0, not the input's intensity.  The
second part's hypotheses are the library contracts at this input, as in
the uniform-input theorem. -/
theorem rescale_constant_zero_and_uniform_artifacts :
    (∀ (a : Img) (v : ℚ), Uniform a v →
      rescale_cast a = pmap (fun _ => 0) a) ∧
    (∀ (clahe : Img → Img) (km : KMeansLib) (rng : Nat) (img : Img)
      (v u : ℚ),
      Uniform img v → Uniform (clahe img) u →
      (∀ l ∈ (km.fit 8 (some 42) rng (pixels (clahe img))).1,
        l < (km.fit 8 (some 42) rng (pixels (clahe img))).2.length) →
      (∀ c ∈ (km.fit 8 (some 42) rng (pixels (clahe img))).2, c = u) →
      Uniform (pipelineRun clahe km rng img).clustered 0 ∧
      Uniform (pipelineRun clahe km rng img).enhanced 0) := by
  constructor
  · exact fun a v hu => rescale_cast_of_uniform a v hu
  · intro clahe km rng img v u huni hu hlab hcent
    have hc : Uniform (enhance_image_kmeans km rng (clahe img) 8) 0 :=
      clustered_uniform_zero km rng (clahe img) 8 u hlab hcent
    exact ⟨hc, blend_images_uniform_zero (clahe img)
      (enhance_image_kmeans km rng (clahe img) 8) (7/10) u hu hc⟩

/-- Witness for C10: a concrete constant buffer rescales to zeros, and
the concrete uniform pipeline run has clustered and enhanced artifacts
uniformly 0. -/
theorem rescale_constant_zero_and_uniform_artifacts_witness :
    rescale_cast [[5, 5], [5, 5]] = pmap (fun _ => 0) [[5, 5], [5, 5]] ∧
    Uniform (pipelineRun clahe0 kmU 0 img4).clustered 0 ∧
    Uniform (pipelineRun clahe0 kmU 0 img4).enhanced 0 :=
  ⟨rescale_constant_zero_and_uniform_artifacts.1 [[5, 5], [5, 5]] 5
      (by norm_num [Uniform, pixels]),
   (rescale_constant_zero_and_uniform_artifacts.2 clahe0 kmU 0 img4
      128 128
      (by norm_num [Uniform, pixels, img4])
      (by norm_num [Uniform, pixels, img4, clahe0])
      (by
        intro l hl
        simp only [kmU, pixels, img4, clahe0, id_eq, List.flatten_cons,
          List.flatten_nil, List.mem_replicate] at hl ⊢
        simp [hl.2])
      (by
        intro c hc
        simp only [kmU, pixels, img4, clahe0, id_eq, List.flatten_cons,
          List.flatten_nil, List.mem_replicate] at hc
        simp [hc.2])).1,
   (rescale_constant_zero_and_uniform_artifacts.2 clahe0 kmU 0 img4
      128 128
      (by norm_num [Uniform, pixels, img4])
      (by norm_num [Uniform, pixels, img4, clahe0])
      (by
        intro l hl
        simp only [kmU, pixels, img4, clahe0, id_eq, List.flatten_cons,
          List.flatten_nil, List.mem_replicate] at hl ⊢
        simp [hl.2])
      (by
        intro c hc
        simp only [kmU, pixels, img4, clahe0, id_eq, List.flatten_cons,
          List.flatten_nil, List.mem_replicate] at hc
        simp [hc.2])).2⟩
